import Mathlib

/-!
Verification model of `lifestream.py`.

The source is a small pandas analytics module with four functions:
`create_transaction_log` (line-item rows collapsed to one row per order),
`sales_chart`, `cohort_retention_chart` (cohort × period retention matrix),
and `new_customers_chart` (distinct new customers per cohort month).

The embedding below models the data transformations of those functions over
exact arithmetic (`Rat` for money, `Int` for Python integers); floating-point
rounding and pandas `NaN` propagation are outside the model.  Pandas
timestamps are modelled by `Date` below; `strftime('%Y-%m')` becomes the
`Date.month` projection (for four-digit years, lexicographic order on
`'YYYY-MM'` strings coincides with calendar order of months, so months are
represented by a single `Nat` index, e.g. year * 12 + month).
-/

/-- Error taxonomy of the module: a missing named column (pandas `KeyError`,
called `SchemaError` by the documentation), a value-level failure in an
arithmetic or conversion step (Python `TypeError`), and a requested cohort
with no data (`KeyError` on column selection, called `CohortNotFoundError`). -/
inductive Err where
  | schemaError
  | typeError
  | cohortNotFound
deriving DecidableEq, Repr

/-- A pandas timestamp: its calendar month (a single index absorbing the
year) plus the remaining instant-within-month component `sub` (day, time).
Timestamps are compared lexicographically; `strftime('%Y-%m')` is the
projection `Date.month`. -/
structure Date where
  month : Nat
  sub : Nat
deriving DecidableEq, Repr

/-- Timestamp comparison (lexicographic on month, then instant). -/
def Date.ble (a b : Date) : Bool :=
  a.month < b.month || (a.month == b.month && a.sub ≤ b.sub)

/-- Binary minimum of two timestamps, as used by the pandas `.min()`
reduction. -/
def Date.minD (a b : Date) : Date := if a.ble b then a else b

/-- The pandas `Series.min()` reduction over a list of timestamps
(`None`-valued on an empty series; the groups it is applied to are always
nonempty). -/
def listMin : List Date → Option Date
  | [] => none
  | d :: ds =>
    some (match listMin ds with
          | none => d
          | some m => d.minD m)

/-! ## The untyped table model, for `create_transaction_log`

`create_transaction_log` (lines 9-56) receives an arbitrary DataFrame and
five column names.  Cells are modelled by `Value`: Python integers, floats
(exact `Rat` here), strings, and timestamps. -/

/-- A cell of a DataFrame. -/
inductive Value where
  | int : Int → Value
  | flt : Rat → Value
  | str : String → Value
  | date : Date → Value
deriving DecidableEq, Repr

/-- Python string repetition `s * n` (empty for non-positive `n`). -/
def strRepeat (s : String) (n : Int) : String :=
  String.join (List.replicate n.toNat s)

/-- Elementwise product of two cells, as evaluated by
`df[quantity_col] * df[unitprice_col]` (line 49) under Python semantics:
numbers multiply; an integer times a string is Python string repetition;
every other combination raises `TypeError`. -/
def pymul : Value → Value → Except Err Value
  | .int a, .int b => .ok (.int (a * b))
  | .int a, .flt b => .ok (.flt ((a : Rat) * b))
  | .flt a, .int b => .ok (.flt (a * (b : Rat)))
  | .flt a, .flt b => .ok (.flt (a * b))
  | .int a, .str s => .ok (.str (strRepeat s a))
  | .str s, .int a => .ok (.str (strRepeat s a))
  | _, _ => .error .typeError

/-- Elementwise sum of two cells under Python semantics (used by the
`np.sum` aggregation on line 52): numbers add, strings concatenate,
everything else raises `TypeError`. -/
def pyadd : Value → Value → Except Err Value
  | .int a, .int b => .ok (.int (a + b))
  | .int a, .flt b => .ok (.flt ((a : Rat) + b))
  | .flt a, .int b => .ok (.flt (a + (b : Rat)))
  | .flt a, .flt b => .ok (.flt (a + b))
  | .str a, .str b => .ok (.str (a ++ b))
  | _, _ => .error .typeError

/-- The `np.sum` aggregation over the cells of one group (lines 51-53): the `+`-reduction of
the group's values, `0` on an empty group. -/
def pysum : List Value → Except Err Value
  | [] => .ok (.int 0)
  | v :: vs => vs.foldlM pyadd v

/-- Conversion of one cell by `.astype('datetime64[ns]')` (line 55): a
timestamp converts to itself.  Conversions from strings or numbers are not
modelled and map to `TypeError`; the claims only exercise tables whose
datetime column holds timestamps. -/
def astypeDatetime : Value → Except Err Value
  | .date d => .ok (.date d)
  | _ => .error .typeError

/-- Whether a cell is numeric (a Python int or float). -/
def Value.isNum : Value → Bool
  | .int _ => true
  | .flt _ => true
  | _ => false

/-- Whether a cell is a timestamp. -/
def Value.isDate : Value → Bool
  | .date _ => true
  | _ => false

/-- The rational content of a numeric cell (`0` on non-numeric cells). -/
def Value.ratVal : Value → Rat
  | .int n => (n : Rat)
  | .flt x => x
  | _ => 0

/-- A DataFrame: named columns and positional rows. -/
structure Table where
  cols : List String
  rows : List (List Value)
deriving DecidableEq, Repr

/-- First index of a sought column name in a column list. -/
def findCol : List String → String → Option Nat
  | [], _ => none
  | c' :: rest, c => if c' == c then some 0 else (findCol rest c).map (· + 1)

/-- Position of a named column (first occurrence). -/
def Table.colIdx (t : Table) (c : String) : Option Nat :=
  findCol t.cols c

/-- Column selection `df[c]`: the column's cells, or the pandas `KeyError`
(`SchemaError` of the documentation) when the name is absent. -/
def Table.getCol (t : Table) (c : String) : Except Err (List Value) :=
  match t.colIdx c with
  | none => .error .schemaError
  | some i => .ok (t.rows.map (fun r => r.getD i (.int 0)))

/-- Column assignment `df[c] = vs`: replaces the column in place when the
name exists, otherwise appends a new column (line 49 mutates the caller's
DataFrame this way). -/
def Table.setCol (t : Table) (c : String) (vs : List Value) : Table :=
  match t.colIdx c with
  | some i => ⟨t.cols, (t.rows.zip vs).map (fun rv => rv.1.set i rv.2)⟩
  | none => ⟨t.cols ++ [c], (t.rows.zip vs).map (fun rv => rv.1 ++ [rv.2])⟩

/-- A rectangular table: every row has one cell per column. -/
def Table.rect (t : Table) : Prop :=
  ∀ r ∈ t.rows, r.length = t.cols.length

/-- The (order_id, (timestamp, customer_id)) key of each row of a table,
read through the three named columns. -/
def Table.keyTriples (t : Table) (o d c : String) :
    Except Err (List (Value × Value × Value)) := do
  let os ← t.getCol o
  let ds ← t.getCol d
  let cs ← t.getCol c
  .ok (os.zip (ds.zip cs))

/-- Sum of the rational contents of a named column (`0` when absent). -/
def colSumRat (t : Table) (c : String) : Rat :=
  match t.getCol c with
  | .ok vs => (vs.map Value.ratVal).sum
  | .error _ => 0

/-- The aggregator `create_transaction_log` (lines 9-56): computes the
per-row `OrderValue = quantity * unitprice` column (line 49, mutating the
input), groups rows by the (order_id, timestamp, customer_id) triple and
sums `OrderValue` within each group (lines 50-53), resets the index so the
key triple becomes ordinary columns (line 54), and converts the timestamp
column (line 55).  Pandas returns the groups sorted by key; the claims
require only grouping correctness, not output order, so groups are listed
in first-appearance order of their key. -/
def createTransactionLog (df : Table)
    (orderidCol datetimeCol customeridCol quantityCol unitpriceCol : String) :
    Except Err Table := do
  let qs ← df.getCol quantityCol
  let ps ← df.getCol unitpriceCol
  let ovs ← (qs.zip ps).mapM (fun qp => pymul qp.1 qp.2)
  let os ← (df.setCol "OrderValue" ovs).getCol orderidCol
  let ds ← (df.setCol "OrderValue" ovs).getCol datetimeCol
  let cs ← (df.setCol "OrderValue" ovs).getCol customeridCol
  let sums ← ((os.zip (ds.zip cs)).dedup).mapM (fun k =>
    pysum ((((os.zip (ds.zip cs)).zip ovs).filter (fun kv => kv.1 == k)).map Prod.snd))
  let dsOut ← (((os.zip (ds.zip cs)).dedup).map (fun k => k.2.1)).mapM astypeDatetime
  .ok ⟨[orderidCol, datetimeCol, customeridCol, "OrderValue"],
       (((os.zip (ds.zip cs)).dedup).zip (dsOut.zip sums)).map
         (fun x => [x.1.1, x.2.1, x.1.2.2, x.2.2])⟩

/-! ## The typed transaction-log model, for the chart functions

The chart functions consume the transaction log produced above: each row
carries a customer id, a timestamp and an order value (their other columns
play no role in the computations). -/

/-- One row of a transaction log, as read by the chart functions through
`customerid_col`, `datetime_col` and `ordervalue_col`. -/
structure TRow where
  customer : String
  date : Date
  value : Rat
deriving DecidableEq, Repr

/-! ### `cohort_retention_chart` (lines 116-189) -/

/-- Line 154: `OrderPeriod = strftime('%Y-%m')` of the row's timestamp. -/
def orderPeriodR (r : TRow) : Nat := r.date.month

/-- Lines 155-158: the `CohortGroup` of a customer — the log is indexed by
customer, the minimum timestamp is taken per customer, and formatted as
`%Y-%m`.  (The value is only read for customers present in the log, where
the minimum exists; `0` is a nominal value for absent customers.) -/
def cohortMonthR (log : List TRow) (c : String) : Nat :=
  match listMin ((log.filter (fun r => r.customer == c)).map TRow.date) with
  | none => 0
  | some m => m.month

/-- Line 158 (broadcast): every row receives its customer's `CohortGroup`. -/
def cohortOfR (log : List TRow) (r : TRow) : Nat := cohortMonthR log r.customer

/-- The distinct `CohortGroup` values, in ascending order (pandas `groupby`
sorts its keys; line 162). -/
def cohortGroupsR (log : List TRow) : List Nat :=
  List.insertionSort (· ≤ ·) ((log.map (cohortOfR log)).dedup)

/-- The rows of one cohort. -/
def rowsOfR (log : List TRow) (g : Nat) : List TRow :=
  log.filter (fun r => cohortOfR log r == g)

/-- The distinct `OrderPeriod` values of one cohort, in ascending order —
the sub-keys of the (CohortGroup, OrderPeriod) `groupby` of line 162, which
pandas sorts lexicographically. -/
def periodsOfR (log : List TRow) (g : Nat) : List Nat :=
  List.insertionSort (· ≤ ·) (((rowsOfR log g).map orderPeriodR).dedup)

/-- The rows of one (CohortGroup, OrderPeriod) group. -/
def groupRowsR (log : List TRow) (g p : Nat) : List TRow :=
  log.filter (fun r => cohortOfR log r == g && orderPeriodR r == p)

/-- Lines 163-166: `TotalUsers` — the number of distinct customers in one
(CohortGroup, OrderPeriod) group (`pd.Series.nunique`). -/
def totalUsersR (log : List TRow) (g p : Nat) : Nat :=
  (((groupRowsR log g p).map TRow.customer).dedup).length

/-- Lines 163-164: the summed order value of one group (`np.sum`). -/
def orderValueAggR (log : List TRow) (g p : Nat) : Rat :=
  ((groupRowsR log g p).map TRow.value).sum

/-- Lines 168-172: within each cohort, its order periods — ascending — are
assigned `CohortPeriod = np.arange(len) + 1`, i.e. ranks `1, 2, …`.  The
list pairs each `OrderPeriod` with its `CohortPeriod`. -/
def assignedPeriodsR (log : List TRow) (g : Nat) : List (Nat × Nat) :=
  (periodsOfR log g).zip (List.range' 1 (periodsOfR log g).length)

/-- Line 179: the cohort's size — `TotalUsers` of its first row in
`CohortPeriod` order (`groupby(level=0).first()`). -/
def cohortSizeR (log : List TRow) (g : Nat) : Nat :=
  totalUsersR log g ((periodsOfR log g).headI)

/-- Line 182: one column of `user_retention` — each present
`(CohortPeriod, TotalUsers / cohort size)` cell of cohort `g` (a period with
no purchases is absent, matching the unstacked sparse matrix). -/
def retentionColR (log : List TRow) (g : Nat) : List (Nat × Rat) :=
  (assignedPeriodsR log g).map
    (fun pr => (pr.2, (totalUsersR log g pr.1 : Rat) / (cohortSizeR log g : Rat)))

/-- Line 185: `user_retention[[cohort1, cohort2, cohort3]]` — the retention
matrix restricted to the three requested cohorts; pandas raises `KeyError`
(`CohortNotFoundError`) when a requested cohort has no column. -/
def cohortRetentionChart (log : List TRow) (c1 c2 c3 : Nat) :
    Except Err (List (Nat × List (Nat × Rat))) :=
  if c1 ∈ cohortGroupsR log ∧ c2 ∈ cohortGroupsR log ∧ c3 ∈ cohortGroupsR log then
    .ok ([c1, c2, c3].map (fun c => (c, retentionColR log c)))
  else .error .cohortNotFound

/-- The caller-visible state of the `transaction_log` DataFrame passed to
`cohort_retention_chart`: its rows, plus the derived `OrderPeriod` and
`CohortGroup` columns once the function has added them (lines 154-158
mutate the caller's DataFrame in place; `none` = column not present). -/
structure LogState where
  tRows : List TRow
  orderPeriodCol : Option (List Nat)
  cohortGroupCol : Option (List Nat)
deriving DecidableEq, Repr

/-- The table as the caller supplied it: no derived columns. -/
def initState (log : List TRow) : LogState := ⟨log, none, none⟩

/-- Lines 154-159: the in-place mutation of the caller's table — the
`OrderPeriod` and `CohortGroup` columns are added (the index round-trip of
lines 155/159 leaves the rows themselves in place). -/
def mutateLog (log : List TRow) : LogState :=
  ⟨log, some (log.map orderPeriodR), some (log.map (cohortOfR log))⟩

/-- The whole of `cohort_retention_chart` as observed by the caller: the final state of
the caller's table together with the outcome.  The mutation of lines
154-158 happens before the cohort check of line 185, so the final state is
the mutated table whether or not an error is raised. -/
def cohortRetentionRun (log : List TRow) (c1 c2 c3 : Nat) :
    LogState × Except Err (List (Nat × List (Nat × Rat))) :=
  (mutateLog log, cohortRetentionChart log c1 c2 c3)

/-! ### `new_customers_chart` (lines 191-241)

Lines 223-226 recompute `OrderPeriod` and `CohortGroup` with the same code
as lines 154-158; the definitions below are this second copy. -/

/-- Line 223: `OrderPeriod` of a row. -/
def orderPeriodN (r : TRow) : Nat := r.date.month

/-- Lines 224-225: the `CohortGroup` of a customer. -/
def cohortMonthN (log : List TRow) (c : String) : Nat :=
  match listMin ((log.filter (fun r => r.customer == c)).map TRow.date) with
  | none => 0
  | some m => m.month

/-- Line 225 (broadcast): every row receives its customer's `CohortGroup`. -/
def cohortOfN (log : List TRow) (r : TRow) : Nat := cohortMonthN log r.customer

/-- Line 227: the distinct `CohortGroup` values, ascending. -/
def cohortGroupsN (log : List TRow) : List Nat :=
  List.insertionSort (· ≤ ·) ((log.map (cohortOfN log)).dedup)

/-- Lines 227-237: per cohort month, `TotalUsers` — the number of distinct
customers whose `CohortGroup` is that month (`pd.Series.nunique`); the
`first()` of line 237 over the singleton per-cohort groups returns these
counts unchanged, and they are what the chart plots. -/
def newCustomerCounts (log : List TRow) : List (Nat × Nat) :=
  (cohortGroupsN log).map (fun g =>
    (g, (((log.filter (fun r => cohortOfN log r == g)).map TRow.customer).dedup).length))

/-! ## Theorems -/

theorem Date.ble_refl (a : Date) : a.ble a = true := by
  simp [Date.ble]

theorem Date.ble_total (a b : Date) : a.ble b = true ∨ b.ble a = true := by
  simp only [Date.ble, Bool.or_eq_true, Bool.and_eq_true, decide_eq_true_eq, beq_iff_eq]
  omega

theorem Date.ble_trans {a b c : Date} (hab : a.ble b = true) (hbc : b.ble c = true) :
    a.ble c = true := by
  simp only [Date.ble, Bool.or_eq_true, Bool.and_eq_true, decide_eq_true_eq,
    beq_iff_eq] at hab hbc ⊢
  omega

theorem Date.ble_antisymm {a b : Date} (hab : a.ble b = true) (hba : b.ble a = true) :
    a = b := by
  obtain ⟨ma, sa⟩ := a
  obtain ⟨mb, sb⟩ := b
  simp only [Date.ble, Bool.or_eq_true, Bool.and_eq_true, decide_eq_true_eq,
    beq_iff_eq] at hab hba
  simp only [Date.mk.injEq]
  omega

theorem Date.ble_month {a b : Date} (h : a.ble b = true) : a.month ≤ b.month := by
  simp only [Date.ble, Bool.or_eq_true, Bool.and_eq_true, decide_eq_true_eq,
    beq_iff_eq] at h
  omega

theorem Date.minD_eq_or (a b : Date) : a.minD b = a ∨ a.minD b = b := by
  unfold Date.minD; split <;> simp

theorem Date.minD_ble_left (a b : Date) : (a.minD b).ble a = true := by
  unfold Date.minD
  split
  · exact Date.ble_refl a
  · rcases Date.ble_total a b with h | h
    · simp_all
    · exact h

theorem Date.minD_ble_right (a b : Date) : (a.minD b).ble b = true := by
  unfold Date.minD
  split
  · assumption
  · exact Date.ble_refl b

theorem Date.minD_comm (a b : Date) : a.minD b = b.minD a := by
  unfold Date.minD
  by_cases hab : a.ble b = true <;> by_cases hba : b.ble a = true <;>
    simp [hab, hba]
  · exact Date.ble_antisymm hab hba
  · rcases Date.ble_total a b with h | h <;> simp_all

theorem Date.minD_assoc (a b c : Date) : (a.minD b).minD c = a.minD (b.minD c) := by
  have hLa : ((a.minD b).minD c).ble a = true :=
    Date.ble_trans (Date.minD_ble_left (a.minD b) c) (Date.minD_ble_left a b)
  have hLb : ((a.minD b).minD c).ble b = true :=
    Date.ble_trans (Date.minD_ble_left (a.minD b) c) (Date.minD_ble_right a b)
  have hLc : ((a.minD b).minD c).ble c = true := Date.minD_ble_right (a.minD b) c
  have hRa : (a.minD (b.minD c)).ble a = true := Date.minD_ble_left a (b.minD c)
  have hRb : (a.minD (b.minD c)).ble b = true :=
    Date.ble_trans (Date.minD_ble_right a (b.minD c)) (Date.minD_ble_left b c)
  have hRc : (a.minD (b.minD c)).ble c = true :=
    Date.ble_trans (Date.minD_ble_right a (b.minD c)) (Date.minD_ble_right b c)
  have hLmem : (a.minD b).minD c = a ∨ (a.minD b).minD c = b ∨ (a.minD b).minD c = c := by
    rcases Date.minD_eq_or (a.minD b) c with h | h
    · rw [h]; rcases Date.minD_eq_or a b with h2 | h2 <;> simp [h2]
    · simp [h]
  have hRmem : a.minD (b.minD c) = a ∨ a.minD (b.minD c) = b ∨ a.minD (b.minD c) = c := by
    rcases Date.minD_eq_or a (b.minD c) with h | h
    · simp [h]
    · rw [h]; rcases Date.minD_eq_or b c with h2 | h2 <;> simp [h2]
  have hLR : ((a.minD b).minD c).ble (a.minD (b.minD c)) = true := by
    rcases hRmem with h | h | h <;> rw [h] <;> assumption
  have hRL : (a.minD (b.minD c)).ble ((a.minD b).minD c) = true := by
    rcases hLmem with h | h | h <;> rw [h] <;> assumption
  exact Date.ble_antisymm hLR hRL

theorem listMin_mem : ∀ {l : List Date} {m : Date}, listMin l = some m → m ∈ l := by
  intro l
  induction l with
  | nil => intro m h; simp [listMin] at h
  | cons d ds ih =>
    intro m h
    simp only [listMin] at h
    cases hds : listMin ds with
    | none => rw [hds] at h; simp at h; simp [h]
    | some m' =>
      rw [hds] at h
      simp only [Option.some.injEq] at h
      rcases Date.minD_eq_or d m' with h2 | h2
      · rw [h2] at h; simp [← h]
      · rw [h2] at h
        exact List.mem_cons_of_mem d (h ▸ ih hds)

theorem listMin_ble : ∀ {l : List Date} {m : Date}, listMin l = some m →
    ∀ x ∈ l, m.ble x = true := by
  intro l
  induction l with
  | nil => intro m h; simp [listMin] at h
  | cons d ds ih =>
    intro m h x hx
    simp only [listMin] at h
    cases hds : listMin ds with
    | none =>
      rw [hds] at h
      simp only [Option.some.injEq] at h
      cases ds with
      | nil =>
        rcases List.mem_singleton.mp hx with rfl
        exact h ▸ Date.ble_refl x
      | cons e es => simp [listMin] at hds
    | some m' =>
      rw [hds] at h
      simp only [Option.some.injEq] at h
      rcases List.mem_cons.mp hx with rfl | hx'
      · exact h ▸ Date.minD_ble_left x m'
      · have := ih hds x hx'
        exact Date.ble_trans (h ▸ Date.minD_ble_right d m') this

theorem listMin_isSome : ∀ {l : List Date}, l ≠ [] → (listMin l).isSome := by
  intro l h
  cases l with
  | nil => exact absurd rfl h
  | cons d ds => simp [listMin]

/-- The list minimum is invariant under permutation of the list: the fold by
`Date.minD` is commutative and associative. -/
theorem listMin_perm {l₁ l₂ : List Date} (h : l₁.Perm l₂) : listMin l₁ = listMin l₂ := by
  induction h with
  | nil => rfl
  | cons x _ ih => simp only [listMin, ih]
  | swap x y l =>
    simp only [listMin]
    cases listMin l with
    | none => simp [Date.minD_comm]
    | some m =>
      simp only [Option.some.injEq]
      rw [← Date.minD_assoc, ← Date.minD_assoc, Date.minD_comm x y]
  | trans _ _ ih₁ ih₂ => exact ih₁.trans ih₂

lemma retentionChart_error_iff (log : List TRow) (c1 c2 c3 : Nat) :
    cohortRetentionChart log c1 c2 c3 = .error .cohortNotFound ↔
      ¬(c1 ∈ cohortGroupsR log ∧ c2 ∈ cohortGroupsR log ∧ c3 ∈ cohortGroupsR log) := by
  unfold cohortRetentionChart
  split <;> simp_all

lemma retentionChart_ok_of_mem (log : List TRow) (c1 c2 c3 : Nat)
    (h : c1 ∈ cohortGroupsR log ∧ c2 ∈ cohortGroupsR log ∧ c3 ∈ cohortGroupsR log) :
    cohortRetentionChart log c1 c2 c3 =
      .ok ([c1, c2, c3].map (fun c => (c, retentionColR log c))) := by
  unfold cohortRetentionChart
  exact if_pos h

lemma cohortMonth_perm {log₁ log₂ : List TRow} (h : log₁.Perm log₂) (c : String) :
    cohortMonthR log₁ c = cohortMonthR log₂ c := by
  unfold cohortMonthR
  rw [listMin_perm ((h.filter (fun r => r.customer == c)).map TRow.date)]

/-- Claim C4: cohort assignment is stable under re-ordering of the input —
for every transaction log and every permutation of its rows, each customer
receives the same CohortGroup (the year-month of their minimum timestamp). -/
theorem cohort_assignment_perm_stable (log₁ log₂ : List TRow)
    (h : log₁.Perm log₂) (c : String) :
    cohortMonthR log₁ c = cohortMonthR log₂ c :=
  cohortMonth_perm h c

/-- Witness for C4 at a concrete log and a concrete transposition of it. -/
theorem cohort_assignment_perm_stable_witness :
    ([⟨"C1", ⟨1, 0⟩, 10⟩, ⟨"C1", ⟨2, 0⟩, 20⟩, ⟨"C2", ⟨2, 5⟩, 5⟩] : List TRow).Perm
      [⟨"C2", ⟨2, 5⟩, 5⟩, ⟨"C1", ⟨2, 0⟩, 20⟩, ⟨"C1", ⟨1, 0⟩, 10⟩] ∧
    cohortMonthR [⟨"C1", ⟨1, 0⟩, 10⟩, ⟨"C1", ⟨2, 0⟩, 20⟩, ⟨"C2", ⟨2, 5⟩, 5⟩] "C1" =
      cohortMonthR [⟨"C2", ⟨2, 5⟩, 5⟩, ⟨"C1", ⟨2, 0⟩, 20⟩, ⟨"C1", ⟨1, 0⟩, 10⟩] "C1" :=
  ⟨by decide, cohort_assignment_perm_stable _ _ (by decide) "C1"⟩

/-- Claim C10: the cohort-assignment step is computed identically by the two
consumers — the assignment embedded in `cohort_retention_chart`
(lines 154-158) and the one embedded in `new_customers_chart`
(lines 223-225) are extensionally equal, per customer and per row. -/
theorem cohort_assignment_consumers_agree (log : List TRow) :
    (∀ c : String, cohortMonthR log c = cohortMonthN log c) ∧
    (∀ r : TRow, cohortOfR log r = cohortOfN log r) :=
  ⟨fun _ => rfl, fun _ => rfl⟩

/-- Claim C6: if any of the three requested cohort identifiers has no
corresponding data, `cohort_retention_chart` fails with the KeyError-style
CohortNotFoundError rather than silently producing empty output; if all
three exist, no such error is raised and the restricted matrix is
returned. -/
theorem retention_cohort_error_iff (log : List TRow) (c1 c2 c3 : Nat) :
    (cohortRetentionChart log c1 c2 c3 = .error .cohortNotFound ↔
      ¬(c1 ∈ cohortGroupsR log ∧ c2 ∈ cohortGroupsR log ∧ c3 ∈ cohortGroupsR log)) ∧
    ((c1 ∈ cohortGroupsR log ∧ c2 ∈ cohortGroupsR log ∧ c3 ∈ cohortGroupsR log) →
      cohortRetentionChart log c1 c2 c3 =
        .ok ([c1, c2, c3].map (fun c => (c, retentionColR log c)))) :=
  ⟨retentionChart_error_iff log c1 c2 c3, retentionChart_ok_of_mem log c1 c2 c3⟩

/-- Witness for C6: a present triple of cohorts succeeds, an absent one
raises the error. -/
theorem retention_cohort_error_iff_witness :
    cohortRetentionChart [⟨"C1", ⟨1, 0⟩, 10⟩, ⟨"C2", ⟨2, 0⟩, 5⟩] 1 2 2 =
      .ok ([1, 2, 2].map (fun c =>
        (c, retentionColR [⟨"C1", ⟨1, 0⟩, 10⟩, ⟨"C2", ⟨2, 0⟩, 5⟩] c))) ∧
    cohortRetentionChart [⟨"C1", ⟨1, 0⟩, 10⟩, ⟨"C2", ⟨2, 0⟩, 5⟩] 1 2 9 =
      .error .cohortNotFound :=
  ⟨(retention_cohort_error_iff [⟨"C1", ⟨1, 0⟩, 10⟩, ⟨"C2", ⟨2, 0⟩, 5⟩] 1 2 2).2 (by decide),
   (retention_cohort_error_iff [⟨"C1", ⟨1, 0⟩, 10⟩, ⟨"C2", ⟨2, 0⟩, 5⟩] 1 2 9).1.mpr
     (by decide)⟩

/-- Counterexample to claim C5 as stated: on a missing requested cohort the
function raises the error, yet the caller's table is not left unchanged —
it has already gained the OrderPeriod and CohortGroup columns. -/
theorem retention_mutates_on_error_cex :
    (cohortRetentionRun [⟨"C1", ⟨1, 0⟩, 10⟩] 5 6 7).2 = .error .cohortNotFound ∧
    (cohortRetentionRun [⟨"C1", ⟨1, 0⟩, 10⟩] 5 6 7).1 ≠
      initState [⟨"C1", ⟨1, 0⟩, 10⟩] :=
  ⟨rfl, by decide⟩

/-- Claim C5 (amended): on failure no partial derived matrix is produced —
the caller receives the full restricted matrix exactly when the three
requested cohorts exist and an error otherwise — but the transform is not
atomic with respect to the caller's table: the table is mutated in place
(it gains the OrderPeriod and CohortGroup columns, lines 154-158) before
the missing-cohort check of line 185, so it is changed even on error. -/
theorem retention_error_before_output (log : List TRow) (c1 c2 c3 : Nat) :
    (cohortRetentionRun log c1 c2 c3).1 = mutateLog log ∧
    ((cohortRetentionRun log c1 c2 c3).2 = .error .cohortNotFound ↔
      ¬(c1 ∈ cohortGroupsR log ∧ c2 ∈ cohortGroupsR log ∧ c3 ∈ cohortGroupsR log)) ∧
    mutateLog log ≠ initState log := by
  refine ⟨rfl, retentionChart_error_iff log c1 c2 c3, ?_⟩
  intro h
  simpa [mutateLog, initState] using congrArg LogState.orderPeriodCol h

/-- Witness for the amended C5 at a concrete log and missing cohorts. -/
theorem retention_error_before_output_witness :
    (cohortRetentionRun [⟨"C2", ⟨3, 1⟩, 7⟩] 5 6 7).1 = mutateLog [⟨"C2", ⟨3, 1⟩, 7⟩] ∧
    (cohortRetentionRun [⟨"C2", ⟨3, 1⟩, 7⟩] 5 6 7).2 = .error .cohortNotFound ∧
    mutateLog [⟨"C2", ⟨3, 1⟩, 7⟩] ≠ initState [⟨"C2", ⟨3, 1⟩, 7⟩] :=
  ⟨(retention_error_before_output [⟨"C2", ⟨3, 1⟩, 7⟩] 5 6 7).1,
   (retention_error_before_output [⟨"C2", ⟨3, 1⟩, 7⟩] 5 6 7).2.1.mpr (by decide),
   (retention_error_before_output [⟨"C2", ⟨3, 1⟩, 7⟩] 5 6 7).2.2⟩

lemma self_mem_customer_filter {log : List TRow} {r : TRow} (hr : r ∈ log) :
    r.date ∈ (log.filter (fun x => x.customer == r.customer)).map TRow.date :=
  List.mem_map_of_mem TRow.date (List.mem_filter.mpr ⟨hr, by simp⟩)

lemma cohortMonth_le_period (log : List TRow) (r : TRow) (hr : r ∈ log) :
    cohortMonthR log r.customer ≤ r.date.month := by
  unfold cohortMonthR
  cases hm : listMin ((log.filter (fun x => x.customer == r.customer)).map TRow.date) with
  | none => exact Nat.zero_le _
  | some m => exact Date.ble_month (listMin_ble hm r.date (self_mem_customer_filter hr))

lemma exists_min_row (log : List TRow) (r : TRow) (hr : r ∈ log) :
    ∃ r' ∈ log, r'.customer = r.customer ∧ r'.date.month = cohortMonthR log r.customer := by
  unfold cohortMonthR
  cases hm : listMin ((log.filter (fun x => x.customer == r.customer)).map TRow.date) with
  | none =>
    have h1 := listMin_isSome (List.ne_nil_of_mem (self_mem_customer_filter hr))
    rw [hm] at h1
    simp at h1
  | some m =>
    obtain ⟨r', hr', hdate⟩ := List.mem_map.mp (listMin_mem hm)
    obtain ⟨hl, hc⟩ := List.mem_filter.mp hr'
    exact ⟨r', hl, by simpa using hc, by rw [hdate]⟩

lemma mem_cohortGroupsR (log : List TRow) (g : Nat) :
    g ∈ cohortGroupsR log ↔ ∃ r ∈ log, cohortOfR log r = g := by
  unfold cohortGroupsR
  rw [(List.perm_insertionSort _ _).mem_iff, List.mem_dedup, List.mem_map]

lemma mem_periodsOfR (log : List TRow) (g p : Nat) :
    p ∈ periodsOfR log g ↔ ∃ r ∈ log, cohortOfR log r = g ∧ orderPeriodR r = p := by
  unfold periodsOfR rowsOfR
  rw [(List.perm_insertionSort _ _).mem_iff, List.mem_dedup, List.mem_map]
  constructor
  · rintro ⟨r, hrf, hp⟩
    obtain ⟨hl, hcond⟩ := List.mem_filter.mp hrf
    exact ⟨r, hl, by simpa using hcond, hp⟩
  · rintro ⟨r, hl, hcg, hp⟩
    exact ⟨r, List.mem_filter.mpr ⟨hl, by simpa using hcg⟩, hp⟩

lemma periodsOfR_sorted (log : List TRow) (g : Nat) :
    List.Sorted (· ≤ ·) (periodsOfR log g) :=
  List.sorted_insertionSort _ _

lemma periodsOfR_nodup (log : List TRow) (g : Nat) : (periodsOfR log g).Nodup :=
  ((List.perm_insertionSort _ _).nodup_iff).mpr (List.nodup_dedup _)

lemma ge_of_mem_periodsOfR (log : List TRow) (g p : Nat) (hp : p ∈ periodsOfR log g) :
    g ≤ p := by
  obtain ⟨r, hl, hcg, hper⟩ := (mem_periodsOfR log g p).mp hp
  have hle := cohortMonth_le_period log r hl
  unfold cohortOfR at hcg
  unfold orderPeriodR at hper
  omega

lemma g_mem_periodsOfR (log : List TRow) (g : Nat) (hg : g ∈ cohortGroupsR log) :
    g ∈ periodsOfR log g := by
  obtain ⟨r, hl, hcg⟩ := (mem_cohortGroupsR log g).mp hg
  obtain ⟨r', hl', hcust, hmonth⟩ := exists_min_row log r hl
  unfold cohortOfR at hcg
  refine (mem_periodsOfR log g g).mpr ⟨r', hl', ?_, ?_⟩
  · unfold cohortOfR
    rw [hcust]
    exact hcg
  · unfold orderPeriodR
    rw [hmonth]
    exact hcg

lemma sorted_headI_le {l : List Nat} (hs : List.Sorted (· ≤ ·) l) {x : Nat} (hx : x ∈ l) :
    l.headI ≤ x := by
  cases l with
  | nil => cases hx
  | cons a t =>
    rcases List.mem_cons.mp hx with rfl | hx'
    · exact le_refl _
    · exact (List.sorted_cons.mp hs).1 x hx'

lemma headI_mem_of_ne_nil {l : List Nat} (h : l ≠ []) : l.headI ∈ l := by
  cases l with
  | nil => exact absurd rfl h
  | cons a t => exact List.mem_cons_self a t

lemma periodsOfR_headI (log : List TRow) (g : Nat) (hg : g ∈ cohortGroupsR log) :
    (periodsOfR log g).headI = g := by
  have hmem := g_mem_periodsOfR log g hg
  have h1 : (periodsOfR log g).headI ≤ g := sorted_headI_le (periodsOfR_sorted log g) hmem
  have h2 : g ≤ (periodsOfR log g).headI :=
    ge_of_mem_periodsOfR log g _ (headI_mem_of_ne_nil (List.ne_nil_of_mem hmem))
  omega

lemma totalUsers_toFinset (log : List TRow) (g p : Nat) :
    totalUsersR log g p = ((groupRowsR log g p).map TRow.customer).toFinset.card := by
  unfold totalUsersR
  rw [List.card_toFinset]

lemma groupRows_sub_cohort (log : List TRow) (g p : Nat) :
    ((groupRowsR log g p).map TRow.customer).toFinset ⊆
      ((groupRowsR log g g).map TRow.customer).toFinset := by
  intro c hc
  rw [List.mem_toFinset, List.mem_map] at hc
  obtain ⟨r, hr, hcust⟩ := hc
  obtain ⟨hl, hcond⟩ := List.mem_filter.mp hr
  rw [Bool.and_eq_true, beq_iff_eq, beq_iff_eq] at hcond
  obtain ⟨r', hl', hcust', hmonth⟩ := exists_min_row log r hl
  have hcg : cohortOfR log r = g := hcond.1
  unfold cohortOfR at hcg
  rw [List.mem_toFinset, List.mem_map]
  refine ⟨r', List.mem_filter.mpr ⟨hl', ?_⟩, by rw [hcust', hcust]⟩
  rw [Bool.and_eq_true, beq_iff_eq, beq_iff_eq]
  constructor
  · unfold cohortOfR
    rw [hcust']
    exact hcg
  · unfold orderPeriodR
    rw [hmonth]
    exact hcg

lemma cohortSize_eq (log : List TRow) (g : Nat) (hg : g ∈ cohortGroupsR log) :
    cohortSizeR log g = totalUsersR log g g := by
  unfold cohortSizeR
  rw [periodsOfR_headI log g hg]

lemma totalUsers_le_size (log : List TRow) (g p : Nat) (hg : g ∈ cohortGroupsR log) :
    totalUsersR log g p ≤ cohortSizeR log g := by
  rw [cohortSize_eq log g hg, totalUsers_toFinset, totalUsers_toFinset]
  exact Finset.card_le_card (groupRows_sub_cohort log g p)

lemma totalUsers_pos (log : List TRow) (g p : Nat) (hp : p ∈ periodsOfR log g) :
    0 < totalUsersR log g p := by
  obtain ⟨r, hl, hcg, hper⟩ := (mem_periodsOfR log g p).mp hp
  unfold totalUsersR
  have h1 : r.customer ∈ (groupRowsR log g p).map TRow.customer := by
    apply List.mem_map_of_mem
    refine List.mem_filter.mpr ⟨hl, ?_⟩
    rw [Bool.and_eq_true, beq_iff_eq, beq_iff_eq]
    exact ⟨hcg, hper⟩
  have h2 : r.customer ∈ ((groupRowsR log g p).map TRow.customer).dedup :=
    List.mem_dedup.mpr h1
  exact List.length_pos.mpr (List.ne_nil_of_mem h2)

lemma cohortSize_pos (log : List TRow) (g : Nat) (hg : g ∈ cohortGroupsR log) :
    0 < cohortSizeR log g := by
  rw [cohortSize_eq log g hg]
  exact totalUsers_pos log g g (g_mem_periodsOfR log g hg)

lemma headI_one_mem_zip {l : List Nat} (h : l ≠ []) :
    (l.headI, 1) ∈ l.zip (List.range' 1 l.length) := by
  cases l with
  | nil => exact absurd rfl h
  | cons a t => exact List.mem_cons_self _ _

lemma mem_zip_range' :
    ∀ (l : List Nat) (s : Nat) {p n : Nat}, (p, n) ∈ l.zip (List.range' s l.length) →
      ∃ i, l[i]? = some p ∧ n = s + i := by
  intro l
  induction l with
  | nil =>
    intro s p n h
    cases h
  | cons a t ih =>
    intro s p n h
    rcases List.mem_cons.mp h with heq | hmem
    · rw [Prod.mk.injEq] at heq
      exact ⟨0, by simp [heq.1], by omega⟩
    · obtain ⟨i, hp, hn⟩ := ih (s + 1) hmem
      exact ⟨i + 1, by simpa using hp, by omega⟩

lemma getElem_zero_headI {l : List Nat} {p : Nat} (h : l[0]? = some p) :
    l.headI = p := by
  cases l with
  | nil => simp at h
  | cons a t => simpa using h

lemma pairwise_zip {α β : Type} {R : α → α → Prop} {S : β → β → Prop} :
    ∀ {l₁ : List α} {l₂ : List β}, l₁.Pairwise R → l₂.Pairwise S →
      (l₁.zip l₂).Pairwise (fun x y => R x.1 y.1 ∧ S x.2 y.2) := by
  intro l₁
  induction l₁ with
  | nil => intro l₂ _ _; simp
  | cons a t ih =>
    intro l₂ h₁ h₂
    cases l₂ with
    | nil => simp
    | cons b u =>
      rw [List.zip_cons_cons]
      refine List.Pairwise.cons ?_ (ih (List.pairwise_cons.mp h₁).2 (List.pairwise_cons.mp h₂).2)
      intro y hy
      obtain ⟨hy1, hy2⟩ := List.of_mem_zip (by exact hy)
      exact ⟨(List.pairwise_cons.mp h₁).1 y.1 hy1, (List.pairwise_cons.mp h₂).1 y.2 hy2⟩

lemma sorted_nodup_strict {l : List Nat} (hs : List.Sorted (· ≤ ·) l) (hn : l.Nodup) :
    List.Pairwise (· < ·) l :=
  (List.Pairwise.and hs hn).imp (fun h => lt_of_le_of_ne h.1 h.2)

lemma retentionCol_value_at_head (log : List TRow) (g : Nat) (hg : g ∈ cohortGroupsR log) :
    ((totalUsersR log g ((periodsOfR log g).headI) : Rat) / (cohortSizeR log g : Rat)) = 1 := by
  rw [periodsOfR_headI log g hg, cohortSize_eq log g hg]
  exact div_self (Nat.cast_ne_zero.mpr
    (Nat.pos_iff_ne_zero.mp (totalUsers_pos log g g (g_mem_periodsOfR log g hg))))

lemma retentionCol_cells (log : List TRow) (g : Nat) (hg : g ∈ cohortGroupsR log) :
    ((1 : Nat), (1 : Rat)) ∈ retentionColR log g ∧
    ∀ cell ∈ retentionColR log g, 0 ≤ cell.2 ∧ cell.2 ≤ 1 ∧ (cell.1 = 1 → cell.2 = 1) := by
  constructor
  · unfold retentionColR assignedPeriodsR
    have hne : periodsOfR log g ≠ [] := List.ne_nil_of_mem (g_mem_periodsOfR log g hg)
    refine List.mem_map.mpr ⟨((periodsOfR log g).headI, 1), headI_one_mem_zip hne, ?_⟩
    rw [Prod.mk.injEq]
    exact ⟨rfl, retentionCol_value_at_head log g hg⟩
  · intro cell hcell
    unfold retentionColR assignedPeriodsR at hcell
    obtain ⟨pr, hpr, hcelleq⟩ := List.mem_map.mp hcell
    have hsizepos : (0 : Rat) < (cohortSizeR log g : Rat) :=
      Nat.cast_pos.mpr (cohortSize_pos log g hg)
    have hple : (totalUsersR log g pr.1 : Rat) ≤ (cohortSizeR log g : Rat) :=
      Nat.cast_le.mpr (totalUsers_le_size log g pr.1 hg)
    subst hcelleq
    refine ⟨div_nonneg (Nat.cast_nonneg _) (Nat.cast_nonneg _),
      (div_le_one hsizepos).mpr hple, ?_⟩
    intro hrank
    obtain ⟨p, n⟩ := pr
    simp only at hrank ⊢
    subst hrank
    obtain ⟨i, hgi, hni⟩ := mem_zip_range' (periodsOfR log g) 1 hpr
    have hi0 : i = 0 := by omega
    subst hi0
    rw [← getElem_zero_headI hgi]
    exact retentionCol_value_at_head log g hg

/-- Claim C2: every cell of the retention matrix built by
`cohort_retention_chart` is a fraction `v` with `0 ≤ v ≤ 1`, and for every
cohort the cell at CohortPeriod 1 is present and equals exactly `1`: each
cohort's period-1 unique-purchaser count is divided by itself. -/
theorem retention_cells_bounded (log : List TRow) (c1 c2 c3 : Nat)
    (out : List (Nat × List (Nat × Rat)))
    (h : cohortRetentionChart log c1 c2 c3 = .ok out) :
    ∀ gcol ∈ out, ((1 : Nat), (1 : Rat)) ∈ gcol.2 ∧
      ∀ cell ∈ gcol.2, 0 ≤ cell.2 ∧ cell.2 ≤ 1 ∧ (cell.1 = 1 → cell.2 = 1) := by
  unfold cohortRetentionChart at h
  by_cases hmem : c1 ∈ cohortGroupsR log ∧ c2 ∈ cohortGroupsR log ∧ c3 ∈ cohortGroupsR log
  · rw [if_pos hmem] at h
    simp only [Except.ok.injEq] at h
    subst h
    intro gcol hgcol
    obtain ⟨c, hc, rfl⟩ := List.mem_map.mp hgcol
    have hcg : c ∈ cohortGroupsR log := by
      simp only [List.mem_cons, List.not_mem_nil, or_false] at hc
      rcases hc with rfl | rfl | rfl
      · exact hmem.1
      · exact hmem.2.1
      · exact hmem.2.2
    exact retentionCol_cells log c hcg
  · rw [if_neg hmem] at h
    cases h

/-- Witness for C2 at a concrete log with two cohorts (repeat purchase by
the first customer): cohort 1 carries the cell (CohortPeriod 1, value 1),
and that cell is within bounds. -/
theorem retention_cells_bounded_witness :
    ((1 : Nat), (1 : Rat)) ∈
      retentionColR [⟨"C1", ⟨1, 0⟩, 10⟩, ⟨"C1", ⟨2, 0⟩, 20⟩, ⟨"C2", ⟨2, 5⟩, 5⟩] 1 ∧
    (0 : Rat) ≤ (1 : Rat) ∧ (1 : Rat) ≤ 1 := by
  have H := retention_cells_bounded
    [⟨"C1", ⟨1, 0⟩, 10⟩, ⟨"C1", ⟨2, 0⟩, 20⟩, ⟨"C2", ⟨2, 5⟩, 5⟩] 1 2 2 _ rfl
    (1, retentionColR [⟨"C1", ⟨1, 0⟩, 10⟩, ⟨"C1", ⟨2, 0⟩, 20⟩, ⟨"C2", ⟨2, 5⟩, 5⟩] 1)
    (List.mem_map_of_mem _ (by decide))
  exact ⟨H.1, (H.2 (1, 1) H.1).1, (H.2 (1, 1) H.1).2.1⟩

/-- Claim C3: for every cohort, the CohortPeriod values assigned to its
order periods are exactly 1, 2, …, k where k is the number of distinct
OrderPeriods observed for that cohort; the (OrderPeriod, CohortPeriod)
pairs are strictly increasing in both coordinates (ranks ascend in
chronological order); the periods carrying a rank are exactly the observed
ones; and rank 1 is carried by the chronologically earliest OrderPeriod
(which is the cohort month itself). -/
theorem cohort_period_ordinality (log : List TRow) (g : Nat)
    (hg : g ∈ cohortGroupsR log) :
    (assignedPeriodsR log g).map Prod.snd =
      List.range' 1 (((rowsOfR log g).map orderPeriodR).dedup.length) ∧
    List.Pairwise (fun x y : Nat × Nat => x.1 < y.1 ∧ x.2 < y.2)
      (assignedPeriodsR log g) ∧
    (∀ p, p ∈ (assignedPeriodsR log g).map Prod.fst ↔
      ∃ r ∈ log, cohortOfR log r = g ∧ orderPeriodR r = p) ∧
    (g, 1) ∈ assignedPeriodsR log g ∧
    (∀ pr ∈ assignedPeriodsR log g, g ≤ pr.1) := by
  have hlen : (((rowsOfR log g).map orderPeriodR).dedup).length = (periodsOfR log g).length :=
    ((List.perm_insertionSort _ _).length_eq).symm
  refine ⟨?_, ?_, ?_, ?_, ?_⟩
  · unfold assignedPeriodsR
    rw [hlen, List.map_snd_zip]
    rw [List.length_range']
  · unfold assignedPeriodsR
    exact pairwise_zip (sorted_nodup_strict (periodsOfR_sorted log g) (periodsOfR_nodup log g))
      (List.pairwise_lt_range' 1 (periodsOfR log g).length)
  · intro p
    unfold assignedPeriodsR
    rw [List.map_fst_zip _ _ (by rw [List.length_range'])]
    exact mem_periodsOfR log g p
  · have hne : periodsOfR log g ≠ [] := List.ne_nil_of_mem (g_mem_periodsOfR log g hg)
    have h0 := headI_one_mem_zip hne
    rw [periodsOfR_headI log g hg] at h0
    exact h0
  · intro pr hpr
    unfold assignedPeriodsR at hpr
    exact ge_of_mem_periodsOfR log g pr.1 (List.of_mem_zip hpr).1

/-- Witness for C3: a cohort active in months 1 and 3 (a gap); its ranks
are 1 and 2. -/
theorem cohort_period_ordinality_witness :
    (1 : Nat) ∈ cohortGroupsR [⟨"C1", ⟨1, 0⟩, 10⟩, ⟨"C1", ⟨3, 0⟩, 20⟩] ∧
    (assignedPeriodsR [⟨"C1", ⟨1, 0⟩, 10⟩, ⟨"C1", ⟨3, 0⟩, 20⟩] 1).map Prod.snd =
      List.range' 1
        (((rowsOfR [⟨"C1", ⟨1, 0⟩, 10⟩, ⟨"C1", ⟨3, 0⟩, 20⟩] 1).map
          orderPeriodR).dedup.length) ∧
    ((1 : Nat), (1 : Nat)) ∈ assignedPeriodsR [⟨"C1", ⟨1, 0⟩, 10⟩, ⟨"C1", ⟨3, 0⟩, 20⟩] 1 :=
  ⟨by decide,
   (cohort_period_ordinality [⟨"C1", ⟨1, 0⟩, 10⟩, ⟨"C1", ⟨3, 0⟩, 20⟩] 1 (by decide)).1,
   (cohort_period_ordinality [⟨"C1", ⟨1, 0⟩, 10⟩, ⟨"C1", ⟨3, 0⟩, 20⟩] 1 (by decide)).2.2.2.1⟩

lemma mem_cohortGroupsN (log : List TRow) (g : Nat) :
    g ∈ cohortGroupsN log ↔ ∃ r ∈ log, cohortOfN log r = g := by
  unfold cohortGroupsN
  rw [(List.perm_insertionSort _ _).mem_iff, List.mem_dedup, List.mem_map]

lemma cohortGroupsN_nodup (log : List TRow) : (cohortGroupsN log).Nodup :=
  ((List.perm_insertionSort _ _).nodup_iff).mpr (List.nodup_dedup _)

lemma newCustomers_fiber (log : List TRow) (g : Nat) :
    (((log.filter (fun r => cohortOfN log r == g)).map TRow.customer).dedup).length =
      ((log.map TRow.customer).toFinset.filter (fun c => cohortMonthN log c = g)).card := by
  have h1 : (log.filter (fun r => cohortOfN log r == g)).map TRow.customer
      = (log.map TRow.customer).filter (fun c => cohortMonthN log c == g) :=
    (@List.filter_map TRow String (fun c => cohortMonthN log c == g) TRow.customer log).symm
  rw [h1, ← List.card_toFinset, List.toFinset_filter]
  congr 1
  apply Finset.filter_congr
  intro c _
  simp

/-- Claim C8: the per-cohort distinct-customer counts plotted by
`new_customers_chart` sum, over all cohort months, to the total number of
distinct customers in the dataset. -/
theorem acquisition_totals (log : List TRow) :
    ((newCustomerCounts log).map Prod.snd).sum = ((log.map TRow.customer).dedup).length := by
  unfold newCustomerCounts
  rw [List.map_map]
  have hmapeq : (cohortGroupsN log).map
      (Prod.snd ∘ fun g =>
        (g, (((log.filter (fun r => cohortOfN log r == g)).map TRow.customer).dedup).length)) =
      (cohortGroupsN log).map
        (fun g => ((log.map TRow.customer).toFinset.filter
          (fun c => cohortMonthN log c = g)).card) := by
    apply List.map_congr_left
    intro g _
    exact newCustomers_fiber log g
  rw [hmapeq, ← List.sum_toFinset _ (cohortGroupsN_nodup log), ← List.card_toFinset]
  refine (Finset.card_eq_sum_card_fiberwise ?_).symm
  intro c hc
  rw [List.mem_toFinset, List.mem_map] at hc
  obtain ⟨r, hr, hcust⟩ := hc
  rw [List.mem_toFinset]
  refine (mem_cohortGroupsN log _).mpr ⟨r, hr, ?_⟩
  unfold cohortOfN
  rw [hcust]

lemma ok_bind {α β : Type} (a : α) (f : α → Except Err β) :
    (Except.ok a >>= f) = f a := rfl

lemma error_bind {α β : Type} (e : Err) (f : α → Except Err β) :
    ((Except.error e : Except Err α) >>= f) = .error e := rfl

lemma findCol_none_iff (cols : List String) (c : String) :
    findCol cols c = none ↔ c ∉ cols := by
  induction cols with
  | nil => simp [findCol]
  | cons c' rest ih =>
    by_cases h : c' == c
    · simp only [findCol, h, if_true]
      simp only [beq_iff_eq] at h
      simp [h]
    · rw [findCol, if_neg h, Option.map_eq_none', ih]
      have hcc : ¬ c = c' := fun heq => h (by simp [heq])
      simp [List.mem_cons, hcc]

lemma findCol_some_spec :
    ∀ {cols : List String} {c : String} {i : Nat}, findCol cols c = some i →
      i < cols.length ∧ cols[i]? = some c := by
  intro cols
  induction cols with
  | nil => intro c i h; simp [findCol] at h
  | cons c' rest ih =>
    intro c i h
    by_cases hc : c' == c
    · simp only [findCol, hc, if_true, Option.some.injEq] at h
      subst h
      simp only [beq_iff_eq] at hc
      simp [hc]
    · simp only [findCol, hc, Bool.false_eq_true, if_false, Option.map_eq_some'] at h
      obtain ⟨j, hj, hji⟩ := h
      obtain ⟨hlt, hget⟩ := ih hj
      subst hji
      refine ⟨by simpa using Nat.succ_lt_succ hlt, by simpa using hget⟩

lemma findCol_append_some {cols : List String} {c : String} {i : Nat} (l2 : List String)
    (h : findCol cols c = some i) : findCol (cols ++ l2) c = some i := by
  induction cols generalizing i with
  | nil => simp [findCol] at h
  | cons c' rest ih =>
    by_cases hc : c' == c
    · simp only [findCol, hc, if_true, Option.some.injEq] at h
      simp [findCol, hc, h]
    · simp only [findCol, hc, Bool.false_eq_true, if_false, Option.map_eq_some'] at h
      obtain ⟨j, hj, hji⟩ := h
      simp only [List.cons_append, findCol, hc, Bool.false_eq_true, if_false,
        Option.map_eq_some']
      exact ⟨j, ih hj, hji⟩

lemma findCol_append_none {cols : List String} {c x : String}
    (h : findCol cols c = none) (hne : c ≠ x) : findCol (cols ++ [x]) c = none := by
  rw [findCol_none_iff] at h ⊢
  simp [h, hne]

lemma getCol_not_mem {t : Table} {c : String} (h : c ∉ t.cols) :
    t.getCol c = .error .schemaError := by
  unfold Table.getCol Table.colIdx
  rw [(findCol_none_iff t.cols c).mpr h]

lemma getCol_mem_ok {t : Table} {c : String} (h : c ∈ t.cols) :
    ∃ vs, t.getCol c = .ok vs := by
  unfold Table.getCol Table.colIdx
  cases hf : findCol t.cols c with
  | none => exact absurd ((findCol_none_iff t.cols c).mp hf) (by simp [h])
  | some i => exact ⟨_, rfl⟩

lemma getCol_length {t : Table} {c : String} {vs : List Value}
    (h : t.getCol c = .ok vs) : vs.length = t.rows.length := by
  unfold Table.getCol at h
  cases hf : t.colIdx c with
  | none => rw [hf] at h; cases h
  | some i =>
    rw [hf] at h
    simp only [Except.ok.injEq] at h
    rw [← h, List.length_map]

lemma setCol_rows_length {t : Table} {c : String} {vs : List Value}
    (hlen : vs.length = t.rows.length) :
    (t.setCol c vs).rows.length = t.rows.length := by
  unfold Table.setCol
  cases t.colIdx c <;> simp [List.length_zip, hlen]

lemma getCol_setCol_ne {t : Table} {c name : String} {vs : List Value}
    (hrect : t.rect) (hlen : vs.length = t.rows.length) (hne : name ≠ c) :
    (t.setCol c vs).getCol name = t.getCol name := by
  unfold Table.setCol
  cases hf : t.colIdx c with
  | some i =>
    unfold Table.getCol Table.colIdx
    simp only []
    cases hn : findCol t.cols name with
    | none => rfl
    | some j =>
      simp only [Except.ok.injEq]
      have hij : i ≠ j := by
        intro heq
        subst heq
        have h1 := (findCol_some_spec hf).2
        have h2 := (findCol_some_spec hn).2
        rw [h1] at h2
        exact hne (by simpa using h2.symm)
      rw [List.map_map]
      have hstep : ∀ rv ∈ t.rows.zip vs,
          ((fun r => r.getD j (Value.int 0)) ∘ fun rv => rv.1.set i rv.2) rv
            = (fun rv => rv.1.getD j (Value.int 0)) rv := by
        intro rv _
        simp only [Function.comp]
        rw [List.getD_eq_getElem?_getD, List.getElem?_set_ne hij,
          ← List.getD_eq_getElem?_getD]
      rw [List.map_congr_left hstep]
      have : (fun rv : List Value × Value => rv.1.getD j (Value.int 0))
          = (fun r : List Value => r.getD j (Value.int 0)) ∘ Prod.fst := rfl
      rw [this, ← List.map_map, List.map_fst_zip _ _ (by omega)]
  | none =>
    unfold Table.getCol Table.colIdx
    simp only []
    cases hn : findCol t.cols name with
    | none =>
      rw [findCol_append_none hn hne]
    | some j =>
      rw [findCol_append_some [c] hn]
      simp only [Except.ok.injEq]
      rw [List.map_map]
      have hstep : ∀ rv ∈ t.rows.zip vs,
          ((fun r => r.getD j (Value.int 0)) ∘ fun rv => rv.1 ++ [rv.2]) rv
            = (fun rv => rv.1.getD j (Value.int 0)) rv := by
        intro rv hrv
        simp only [Function.comp]
        have hr1 : rv.1 ∈ t.rows := (List.of_mem_zip hrv).1
        have hjlt : j < rv.1.length := by
          rw [hrect rv.1 hr1]
          exact (findCol_some_spec hn).1
        exact List.getD_append _ _ _ _ hjlt
      rw [List.map_congr_left hstep]
      have : (fun rv : List Value × Value => rv.1.getD j (Value.int 0))
          = (fun r : List Value => r.getD j (Value.int 0)) ∘ Prod.fst := rfl
      rw [this, ← List.map_map, List.map_fst_zip _ _ (by omega)]

lemma pymul_num_spec {a b : Value} (ha : a.isNum = true) (hb : b.isNum = true) :
    ∃ v, pymul a b = .ok v ∧ v.isNum = true ∧ v.ratVal = a.ratVal * b.ratVal := by
  cases a <;> cases b <;> simp_all [Value.isNum] <;>
    simp [pymul, Value.ratVal] <;> push_cast <;> ring

lemma pyadd_num_spec {a b : Value} (ha : a.isNum = true) (hb : b.isNum = true) :
    ∃ v, pyadd a b = .ok v ∧ v.isNum = true ∧ v.ratVal = a.ratVal + b.ratVal := by
  cases a <;> cases b <;> simp_all [Value.isNum] <;>
    simp [pyadd, Value.ratVal] <;> push_cast <;> ring

lemma pymul_error_eq {a b : Value} {e : Err} (h : pymul a b = .error e) :
    e = .typeError := by
  cases a <;> cases b <;> simp_all [pymul]

lemma mapM_pymul_ok {l : List (Value × Value)}
    (h : ∀ qp ∈ l, qp.1.isNum = true ∧ qp.2.isNum = true) :
    ∃ ovs, l.mapM (fun qp => pymul qp.1 qp.2) = .ok ovs ∧
      ovs.map Value.ratVal = l.map (fun qp => qp.1.ratVal * qp.2.ratVal) ∧
      (∀ v ∈ ovs, v.isNum = true) ∧ ovs.length = l.length := by
  induction l with
  | nil => exact ⟨[], rfl, rfl, by simp, rfl⟩
  | cons qp rest ih =>
    obtain ⟨v, hv, hvn, hvr⟩ :=
      pymul_num_spec (h qp (List.mem_cons_self qp rest)).1 (h qp (List.mem_cons_self qp rest)).2
    obtain ⟨ovs, hovs, hmap, hnum, hlen⟩ := ih (fun x hx => h x (List.mem_cons_of_mem qp hx))
    refine ⟨v :: ovs, ?_, ?_, ?_, ?_⟩
    · rw [List.mapM_cons, hv, ok_bind, hovs, ok_bind]
      rfl
    · simp [hmap, hvr]
    · intro w hw
      rcases List.mem_cons.mp hw with rfl | hw'
      · exact hvn
      · exact hnum w hw'
    · simp [hlen]

lemma mapM_pymul_error {l : List (Value × Value)}
    (hbad : ∃ qp ∈ l, pymul qp.1 qp.2 = .error .typeError) :
    l.mapM (fun qp => pymul qp.1 qp.2) = .error .typeError := by
  induction l with
  | nil => simp at hbad
  | cons qp rest ih =>
    rw [List.mapM_cons]
    cases hhead : pymul qp.1 qp.2 with
    | error e =>
      have he : e = Err.typeError := pymul_error_eq hhead
      subst he
      rw [error_bind]
    | ok v =>
      rw [ok_bind]
      have hrest : ∃ x ∈ rest, pymul x.1 x.2 = .error .typeError := by
        obtain ⟨x, hx, hxe⟩ := hbad
        rcases List.mem_cons.mp hx with rfl | hx'
        · rw [hhead] at hxe; cases hxe
        · exact ⟨x, hx', hxe⟩
      rw [ih hrest, error_bind]

lemma foldlM_pyadd_spec :
    ∀ {vs : List Value} {acc : Value}, acc.isNum = true → (∀ v ∈ vs, v.isNum = true) →
      ∃ s, vs.foldlM pyadd acc = .ok s ∧ s.isNum = true ∧
        s.ratVal = acc.ratVal + (vs.map Value.ratVal).sum := by
  intro vs
  induction vs with
  | nil => intro acc hacc _; exact ⟨acc, rfl, hacc, by simp⟩
  | cons v rest ih =>
    intro acc hacc h
    obtain ⟨w, hw, hwn, hwr⟩ := pyadd_num_spec hacc (h v (List.mem_cons_self v rest))
    obtain ⟨s, hs, hsn, hsr⟩ := ih hwn (fun x hx => h x (List.mem_cons_of_mem v hx))
    refine ⟨s, ?_, hsn, ?_⟩
    · rw [List.foldlM_cons, hw, ok_bind, hs]
    · rw [hsr, hwr]
      simp only [List.map_cons, List.sum_cons]
      ring

lemma pysum_spec {l : List Value} (h : ∀ v ∈ l, v.isNum = true) :
    ∃ s, pysum l = .ok s ∧ s.isNum = true ∧ s.ratVal = (l.map Value.ratVal).sum := by
  cases l with
  | nil => exact ⟨.int 0, rfl, rfl, by simp [Value.ratVal]⟩
  | cons v rest =>
    obtain ⟨s, hs, hsn, hsr⟩ :=
      foldlM_pyadd_spec (h v (List.mem_cons_self v rest))
        (fun x hx => h x (List.mem_cons_of_mem v hx))
    exact ⟨s, hs, hsn, by rw [hsr]; simp⟩

lemma mapM_pysum_ok {κ : Type} {gs : List κ} {F : κ → List Value}
    (h : ∀ k ∈ gs, ∀ v ∈ F k, v.isNum = true) :
    ∃ sums, gs.mapM (fun k => pysum (F k)) = .ok sums ∧
      sums.map Value.ratVal = gs.map (fun k => ((F k).map Value.ratVal).sum) ∧
      sums.length = gs.length := by
  induction gs with
  | nil => exact ⟨[], rfl, rfl, rfl⟩
  | cons k rest ih =>
    obtain ⟨s, hs, _, hsr⟩ := pysum_spec (h k (List.mem_cons_self k rest))
    obtain ⟨sums, hsums, hmap, hlen⟩ := ih (fun x hx => h x (List.mem_cons_of_mem k hx))
    refine ⟨s :: sums, ?_, ?_, ?_⟩
    · rw [List.mapM_cons, hs, ok_bind, hsums, ok_bind]
      rfl
    · simp [hmap, hsr]
    · simp [hlen]

lemma mapM_astype_ok_of_dates {l : List Value} (h : ∀ v ∈ l, v.isDate = true) :
    l.mapM astypeDatetime = .ok l := by
  induction l with
  | nil => rfl
  | cons v rest ih =>
    have hv : astypeDatetime v = .ok v := by
      cases v <;> simp_all [Value.isDate, astypeDatetime]
    rw [List.mapM_cons, hv, ok_bind, ih (fun x hx => h x (List.mem_cons_of_mem v hx)), ok_bind]
    rfl

lemma mapM_astype_id : ∀ {l l' : List Value}, l.mapM astypeDatetime = .ok l' → l' = l := by
  intro l
  induction l with
  | nil =>
    intro l' h
    simp only [List.mapM_nil] at h
    cases h
    rfl
  | cons v rest ih =>
    intro l' h
    rw [List.mapM_cons] at h
    cases hv : astypeDatetime v with
    | error e => rw [hv, error_bind] at h; cases h
    | ok w =>
      have hwv : w = v := by
        cases v <;> simp_all [astypeDatetime]
      rw [hv, ok_bind] at h
      cases hrest : rest.mapM astypeDatetime with
      | error e => rw [hrest, error_bind] at h; cases h
      | ok rest' =>
        rw [hrest, ok_bind] at h
        simp only [pure, Except.pure, Except.ok.injEq] at h
        rw [← h, hwv, ih hrest]

lemma sum_indicator (k : Value × Value × Value) (x : Rat) :
    ∀ {ks : List (Value × Value × Value)}, ks.Nodup → k ∈ ks →
      (ks.map (fun k' => if k == k' then x else 0)).sum = x := by
  intro ks
  induction ks with
  | nil => intro _ h; cases h
  | cons a t ih =>
    intro hnd hk
    simp only [List.map_cons, List.sum_cons]
    rcases List.mem_cons.mp hk with rfl | hk'
    · rw [if_pos (by simp)]
      have hnotin : k ∉ t := (List.nodup_cons.mp hnd).1
      have hzero : (t.map (fun k' => if k == k' then x else 0)).sum = 0 := by
        rw [List.map_congr_left (g := fun _ => (0 : Rat)) ?_]
        · simp
        · intro b hb
          rw [if_neg ?_]
          intro hbeq
          have hkb : k = b := by simpa using hbeq
          exact hnotin (hkb ▸ hb)
      rw [hzero]
      ring
    · have hka : ¬ (k == a) = true := by
        intro hbeq
        have : k = a := by simpa using hbeq
        exact (List.nodup_cons.mp hnd).1 (this ▸ hk')
      rw [if_neg hka, ih (List.nodup_cons.mp hnd).2 hk']
      ring

lemma sum_fiber :
    ∀ (ps : List ((Value × Value × Value) × Rat)) (ks : List (Value × Value × Value)),
      ks.Nodup → (∀ p ∈ ps, p.1 ∈ ks) →
      (ks.map (fun k => ((ps.filter (fun kv => kv.1 == k)).map Prod.snd).sum)).sum
        = (ps.map Prod.snd).sum := by
  intro ps
  induction ps with
  | nil => intro ks _ _; simp
  | cons q qs ih =>
    intro ks hnd hmem
    have hstep : ∀ k ∈ ks,
        (((q :: qs).filter (fun kv => kv.1 == k)).map Prod.snd).sum
          = (if q.1 == k then q.2 else 0)
            + ((qs.filter (fun kv => kv.1 == k)).map Prod.snd).sum := by
      intro k _
      rw [List.filter_cons]
      by_cases h : (q.1 == k) = true
      · rw [if_pos h, if_pos h]
        simp
      · rw [if_neg h, if_neg h]
        ring
    rw [List.map_congr_left hstep, List.sum_map_add]
    rw [sum_indicator q.1 q.2 hnd (hmem q (List.mem_cons_self q qs)),
      ih ks hnd (fun p hp => hmem p (List.mem_cons_of_mem q hp))]
    simp

lemma bind_ok_exists {α β : Type} {x : Except Err α} {f : α → Except Err β} {out : β}
    (h : (x >>= f) = .ok out) : ∃ a, x = .ok a ∧ f a = .ok out := by
  cases x with
  | error e => rw [error_bind] at h; simp at h
  | ok a => exact ⟨a, rfl, h⟩

lemma group_vals_ratVal (P : List ((Value × Value × Value) × Value))
    (k : Value × Value × Value) :
    ((P.filter (fun kv => kv.1 == k)).map Prod.snd).map Value.ratVal
      = ((P.map (fun kv => (kv.1, kv.2.ratVal))).filter (fun kv => kv.1 == k)).map
          Prod.snd := by
  induction P with
  | nil => rfl
  | cons kv rest ih =>
    by_cases h : (kv.1 == k) = true <;> simp [List.filter_cons, h, ih]

/-- Claim C1: for every input table, the sum of OrderValue over all rows
returned by `create_transaction_log` equals the sum of quantity × unit
price over all input rows — the grouping drops and duplicates nothing.
(Quantities and prices are required to be numeric, the case the claim's
sums speak about; the three key column names must differ from the reserved
`OrderValue` name so that the output's OrderValue column is the computed
one.) -/
theorem aggregation_sum_preserved (df : Table) (o d c q p : String) (out : Table)
    (qs ps : List Value)
    (hq : df.getCol q = .ok qs) (hp : df.getCol p = .ok ps)
    (hnum : ∀ v ∈ qs ++ ps, v.isNum = true)
    (ho : o ≠ "OrderValue") (hd : d ≠ "OrderValue") (hc : c ≠ "OrderValue")
    (hok : createTransactionLog df o d c q p = .ok out) :
    colSumRat out "OrderValue" =
      ((qs.zip ps).map (fun qp => qp.1.ratVal * qp.2.ratVal)).sum := by
  unfold createTransactionLog at hok
  rw [hq, ok_bind, hp, ok_bind] at hok
  have hzipnum : ∀ qp ∈ qs.zip ps, qp.1.isNum = true ∧ qp.2.isNum = true := by
    intro qp hqp
    obtain ⟨a, b⟩ := qp
    obtain ⟨h1, h2⟩ := List.of_mem_zip hqp
    exact ⟨hnum a (List.mem_append.mpr (Or.inl h1)),
      hnum b (List.mem_append.mpr (Or.inr h2))⟩
  obtain ⟨ovs, hovs, hovmap, hovnum, hovlen⟩ := mapM_pymul_ok hzipnum
  rw [hovs, ok_bind] at hok
  obtain ⟨os, hos, hok⟩ := bind_ok_exists hok
  obtain ⟨ds, hds, hok⟩ := bind_ok_exists hok
  obtain ⟨cs, hcs, hok⟩ := bind_ok_exists hok
  obtain ⟨sums, hsums, hok⟩ := bind_ok_exists hok
  obtain ⟨dsOut, hdsOut, hok⟩ := bind_ok_exists hok
  have hgroupnum : ∀ k ∈ (os.zip (ds.zip cs)).dedup,
      ∀ v ∈ ((((os.zip (ds.zip cs)).zip ovs).filter (fun kv => kv.1 == k)).map Prod.snd),
        v.isNum = true := by
    intro k _ v hv
    rw [List.mem_map] at hv
    obtain ⟨kv, hkv, hkveq⟩ := hv
    obtain ⟨kk, vv⟩ := kv
    have hmemzip := (List.mem_filter.mp hkv).1
    subst hkveq
    exact hovnum vv (List.of_mem_zip hmemzip).2
  obtain ⟨sums', hsums', hsummap, hsumlen⟩ := mapM_pysum_ok hgroupnum
  have hse : sums = sums' := Except.ok.inj (hsums.symm.trans hsums')
  subst hse
  have hdsid := mapM_astype_id hdsOut
  subst hdsid
  simp only [pure, Except.pure, Except.ok.injEq] at hok
  subst hok
  -- lengths
  have hqs : qs.length = df.rows.length := getCol_length hq
  have hps : ps.length = df.rows.length := getCol_length hp
  have hovlen2 : ovs.length = df.rows.length := by
    rw [hovlen, List.length_zip, hqs, hps]
    exact Nat.min_self _
  have hsetlen : (df.setCol "OrderValue" ovs).rows.length = df.rows.length :=
    setCol_rows_length hovlen2
  have hoslen : os.length = df.rows.length := by rw [getCol_length hos, hsetlen]
  have hdslen : ds.length = df.rows.length := by rw [getCol_length hds, hsetlen]
  have hcslen : cs.length = df.rows.length := by rw [getCol_length hcs, hsetlen]
  have hkeyslen : (os.zip (ds.zip cs)).length = df.rows.length := by
    simp only [List.length_zip, hoslen, hdslen, hcslen]
    omega
  -- the OrderValue column of the output
  unfold colSumRat Table.getCol Table.colIdx
  have hfind : findCol [o, d, c, "OrderValue"] "OrderValue" = some 3 := by
    simp [findCol, ho, hd, hc]
  simp only [hfind]
  have hsumlen2 : sums.length = ((os.zip (ds.zip cs)).dedup).length := hsumlen
  have hlen1 : ((((os.zip (ds.zip cs)).dedup).map (fun k => k.2.1)).zip sums).length
      ≤ ((os.zip (ds.zip cs)).dedup).length := by
    simp only [List.length_zip, List.length_map]
    omega
  have hlen2 : sums.length ≤ (((os.zip (ds.zip cs)).dedup).map (fun k => k.2.1)).length := by
    simp only [List.length_map]
    omega
  have hcolm : ((((os.zip (ds.zip cs)).dedup).zip
        ((((os.zip (ds.zip cs)).dedup).map (fun k => k.2.1)).zip sums)).map
          (fun x => [x.1.1, x.2.1, x.1.2.2, x.2.2])).map
            (fun r => r.getD 3 (Value.int 0)) = sums := by
    rw [List.map_map]
    have hstep : ∀ x ∈ ((os.zip (ds.zip cs)).dedup).zip
        ((((os.zip (ds.zip cs)).dedup).map (fun k => k.2.1)).zip sums),
        ((fun r => r.getD 3 (Value.int 0)) ∘ fun x => [x.1.1, x.2.1, x.1.2.2, x.2.2]) x
          = (Prod.snd ∘ Prod.snd) x := by
      intro x _
      rfl
    rw [List.map_congr_left hstep, ← List.map_map, List.map_snd_zip _ _ hlen1,
      List.map_snd_zip _ _ hlen2]
  rw [hcolm, hsummap]
  -- reduce per-group value sums to pairs of (key, rational value)
  have hgv : ∀ k ∈ (os.zip (ds.zip cs)).dedup,
      ((((((os.zip (ds.zip cs)).zip ovs).filter (fun kv => kv.1 == k)).map Prod.snd)).map
        Value.ratVal).sum
        = (((((os.zip (ds.zip cs)).zip ovs).map
            (fun kv => (kv.1, kv.2.ratVal))).filter (fun kv => kv.1 == k)).map
              Prod.snd).sum := by
    intro k _
    rw [group_vals_ratVal]
  rw [List.map_congr_left hgv]
  have hmemk : ∀ rp ∈ ((os.zip (ds.zip cs)).zip ovs).map (fun kv => (kv.1, kv.2.ratVal)),
      rp.1 ∈ (os.zip (ds.zip cs)).dedup := by
    intro rp hrp
    rw [List.mem_map] at hrp
    obtain ⟨kv, hkv, hkveq⟩ := hrp
    obtain ⟨kk, vv⟩ := kv
    subst hkveq
    exact List.mem_dedup.mpr (List.of_mem_zip hkv).1
  rw [sum_fiber (((os.zip (ds.zip cs)).zip ovs).map (fun kv => (kv.1, kv.2.ratVal)))
    ((os.zip (ds.zip cs)).dedup) (List.nodup_dedup _) hmemk]
  rw [List.map_map]
  have hsndg : ((os.zip (ds.zip cs)).zip ovs).map (Prod.snd ∘ fun kv => (kv.1, kv.2.ratVal))
      = (((os.zip (ds.zip cs)).zip ovs).map Prod.snd).map Value.ratVal := by
    rw [List.map_map]
    rfl
  rw [hsndg, List.map_snd_zip _ _ (by omega), hovmap]

/-- Witness for C1: two line items of one order (2×3 + 1×4 = 10) plus a
single-line order (5×1 = 5); the output order values sum to the input
line-value total 15. -/
theorem aggregation_sum_preserved_witness :
    colSumRat ⟨["o", "t", "cu", "OrderValue"],
        [[.int 1, .date ⟨1, 0⟩, .str "A", .int 10],
         [.int 2, .date ⟨2, 0⟩, .str "B", .int 5]]⟩ "OrderValue" =
      ((([Value.int 2, Value.int 1, Value.int 5]).zip
          [Value.int 3, Value.int 4, Value.int 1]).map
        (fun qp => qp.1.ratVal * qp.2.ratVal)).sum :=
  aggregation_sum_preserved
    ⟨["o", "t", "cu", "qty", "pr"],
     [[.int 1, .date ⟨1, 0⟩, .str "A", .int 2, .int 3],
      [.int 1, .date ⟨1, 0⟩, .str "A", .int 1, .int 4],
      [.int 2, .date ⟨2, 0⟩, .str "B", .int 5, .int 1]]⟩
    "o" "t" "cu" "qty" "pr" _ _ _ rfl rfl (by decide)
    (by decide) (by decide) (by decide) rfl

lemma mapM_ok_length {α β : Type} {f : α → Except Err β} :
    ∀ {l : List α} {out : List β}, l.mapM f = .ok out → out.length = l.length := by
  intro l
  induction l with
  | nil =>
    intro out h
    simp only [List.mapM_nil, pure, Except.pure, Except.ok.injEq] at h
    subst h
    rfl
  | cons a t ih =>
    intro out h
    rw [List.mapM_cons] at h
    obtain ⟨b, hb, h⟩ := bind_ok_exists h
    obtain ⟨bs, hbs, h⟩ := bind_ok_exists h
    simp only [pure, Except.pure, Except.ok.injEq] at h
    subst h
    simp [ih hbs]

/-- Claim C9: in the aggregator's output no two rows share the same
(order_id, timestamp, customer_id) key, and the keys present are exactly
the distinct key triples of the input — each distinct input triple yields
exactly one output row.  (The three key column names are pairwise distinct
and differ from the reserved `OrderValue` name, and the input table is
rectangular, as a DataFrame is.) -/
theorem grouping_unique (df : Table) (o d c q p : String) (out : Table)
    (hrect : df.rect)
    (hod : o ≠ d) (hoc : o ≠ c) (hdc : d ≠ c)
    (ho : o ≠ "OrderValue") (hd : d ≠ "OrderValue") (hc : c ≠ "OrderValue")
    (hok : createTransactionLog df o d c q p = .ok out) :
    ∃ inK outK, df.keyTriples o d c = .ok inK ∧ out.keyTriples o d c = .ok outK ∧
      outK.Nodup ∧ ∀ k, k ∈ outK ↔ k ∈ inK := by
  unfold createTransactionLog at hok
  obtain ⟨qs, hq, hok⟩ := bind_ok_exists hok
  obtain ⟨ps, hp, hok⟩ := bind_ok_exists hok
  obtain ⟨ovs, hovs, hok⟩ := bind_ok_exists hok
  obtain ⟨os, hos, hok⟩ := bind_ok_exists hok
  obtain ⟨ds, hds, hok⟩ := bind_ok_exists hok
  obtain ⟨cs, hcs, hok⟩ := bind_ok_exists hok
  obtain ⟨sums, hsums, hok⟩ := bind_ok_exists hok
  obtain ⟨dsOut, hdsOut, hok⟩ := bind_ok_exists hok
  have hdsid := mapM_astype_id hdsOut
  subst hdsid
  simp only [pure, Except.pure, Except.ok.injEq] at hok
  subst hok
  have hovlen2 : ovs.length = df.rows.length := by
    rw [mapM_ok_length hovs, List.length_zip, getCol_length hq, getCol_length hp]
    exact Nat.min_self _
  have hos' : df.getCol o = .ok os := by
    rw [← getCol_setCol_ne hrect hovlen2 ho]
    exact hos
  have hds' : df.getCol d = .ok ds := by
    rw [← getCol_setCol_ne hrect hovlen2 hd]
    exact hds
  have hcs' : df.getCol c = .ok cs := by
    rw [← getCol_setCol_ne hrect hovlen2 hc]
    exact hcs
  have hinK : df.keyTriples o d c = .ok (os.zip (ds.zip cs)) := by
    unfold Table.keyTriples
    rw [hos', ok_bind, hds', ok_bind, hcs', ok_bind]
  have hsumlen : sums.length = ((os.zip (ds.zip cs)).dedup).length := mapM_ok_length hsums
  have hlenBS : ((os.zip (ds.zip cs)).dedup).length ≤
      ((((os.zip (ds.zip cs)).dedup).map (fun k => k.2.1)).zip sums).length := by
    simp only [List.length_zip, List.length_map]
    omega
  have hlenSB : (((((os.zip (ds.zip cs)).dedup).map (fun k => k.2.1)).zip sums)).length ≤
      ((os.zip (ds.zip cs)).dedup).length := by
    simp only [List.length_zip, List.length_map]
    omega
  have hfo : findCol [o, d, c, "OrderValue"] o = some 0 := by
    simp [findCol]
  have hfd : findCol [o, d, c, "OrderValue"] d = some 1 := by
    simp [findCol, hod]
  have hfc : findCol [o, d, c, "OrderValue"] c = some 2 := by
    simp [findCol, hoc, hdc]
  have hR0 : ((((os.zip (ds.zip cs)).dedup).zip
        ((((os.zip (ds.zip cs)).dedup).map (fun k => k.2.1)).zip sums)).map
          (fun x => [x.1.1, x.2.1, x.1.2.2, x.2.2])).map
            (fun r => r.getD 0 (Value.int 0))
      = ((os.zip (ds.zip cs)).dedup).map (fun k => k.1) := by
    rw [List.map_map]
    have hstep : ∀ x ∈ ((os.zip (ds.zip cs)).dedup).zip
        ((((os.zip (ds.zip cs)).dedup).map (fun k => k.2.1)).zip sums),
        ((fun r => r.getD 0 (Value.int 0)) ∘ fun x => [x.1.1, x.2.1, x.1.2.2, x.2.2]) x
          = ((fun k : Value × Value × Value => k.1) ∘ Prod.fst) x := by
      intro x _
      rfl
    rw [List.map_congr_left hstep, ← List.map_map, List.map_fst_zip _ _ hlenBS]
  have hR1 : ((((os.zip (ds.zip cs)).dedup).zip
        ((((os.zip (ds.zip cs)).dedup).map (fun k => k.2.1)).zip sums)).map
          (fun x => [x.1.1, x.2.1, x.1.2.2, x.2.2])).map
            (fun r => r.getD 1 (Value.int 0))
      = ((os.zip (ds.zip cs)).dedup).map (fun k => k.2.1) := by
    rw [List.map_map]
    have hstep : ∀ x ∈ ((os.zip (ds.zip cs)).dedup).zip
        ((((os.zip (ds.zip cs)).dedup).map (fun k => k.2.1)).zip sums),
        ((fun r => r.getD 1 (Value.int 0)) ∘ fun x => [x.1.1, x.2.1, x.1.2.2, x.2.2]) x
          = (Prod.fst ∘ Prod.snd) x := by
      intro x _
      rfl
    rw [List.map_congr_left hstep, ← List.map_map, List.map_snd_zip _ _ hlenSB,
      List.map_fst_zip _ _ (by simp only [List.length_map]; omega)]
  have hR2 : ((((os.zip (ds.zip cs)).dedup).zip
        ((((os.zip (ds.zip cs)).dedup).map (fun k => k.2.1)).zip sums)).map
          (fun x => [x.1.1, x.2.1, x.1.2.2, x.2.2])).map
            (fun r => r.getD 2 (Value.int 0))
      = ((os.zip (ds.zip cs)).dedup).map (fun k => k.2.2) := by
    rw [List.map_map]
    have hstep : ∀ x ∈ ((os.zip (ds.zip cs)).dedup).zip
        ((((os.zip (ds.zip cs)).dedup).map (fun k => k.2.1)).zip sums),
        ((fun r => r.getD 2 (Value.int 0)) ∘ fun x => [x.1.1, x.2.1, x.1.2.2, x.2.2]) x
          = ((fun k : Value × Value × Value => k.2.2) ∘ Prod.fst) x := by
      intro x _
      rfl
    rw [List.map_congr_left hstep, ← List.map_map, List.map_fst_zip _ _ hlenBS]
  refine ⟨os.zip (ds.zip cs), (os.zip (ds.zip cs)).dedup, hinK, ?_, List.nodup_dedup _,
    fun k => List.mem_dedup⟩
  unfold Table.keyTriples Table.getCol Table.colIdx
  simp only [hfo, hfd, hfc, ok_bind]
  rw [hR0, hR1, hR2, List.zip_map', List.zip_map']
  have heta : ∀ k ∈ (os.zip (ds.zip cs)).dedup,
      (fun k : Value × Value × Value => (k.1, k.2.1, k.2.2)) k = id k := by
    intro k _
    rfl
  rw [List.map_congr_left heta, List.map_id]

/-- Witness for C9 at the concrete three-line-item table: the two distinct
keys survive, deduplicated, in the output. -/
theorem grouping_unique_witness :
    ∃ inK outK,
      Table.keyTriples
        ⟨["o", "t", "cu", "qty", "pr"],
         [[.int 1, .date ⟨1, 0⟩, .str "A", .int 2, .int 3],
          [.int 1, .date ⟨1, 0⟩, .str "A", .int 1, .int 4],
          [.int 2, .date ⟨2, 0⟩, .str "B", .int 5, .int 1]]⟩ "o" "t" "cu" = .ok inK ∧
      Table.keyTriples
        ⟨["o", "t", "cu", "OrderValue"],
         [[.int 1, .date ⟨1, 0⟩, .str "A", .int 10],
          [.int 2, .date ⟨2, 0⟩, .str "B", .int 5]]⟩ "o" "t" "cu" = .ok outK ∧
      outK.Nodup ∧ ∀ k, k ∈ outK ↔ k ∈ inK :=
  grouping_unique
    ⟨["o", "t", "cu", "qty", "pr"],
     [[.int 1, .date ⟨1, 0⟩, .str "A", .int 2, .int 3],
      [.int 1, .date ⟨1, 0⟩, .str "A", .int 1, .int 4],
      [.int 2, .date ⟨2, 0⟩, .str "B", .int 5, .int 1]]⟩
    "o" "t" "cu" "qty" "pr" _
    (by unfold Table.rect; decide) (by decide) (by decide) (by decide)
    (by decide) (by decide) (by decide) rfl

/-- Counterexample to claim C7 as stated: a non-numeric unit price (a
string) paired with an integral quantity does not raise TypeError — Python
string repetition yields the order value "xx" and the aggregator
succeeds. -/
theorem aggregator_type_error_cex :
    Value.isNum (.str "x") = false ∧
    createTransactionLog
      ⟨["oid", "dt", "cid", "qty", "price"],
       [[.int 1, .date ⟨1, 0⟩, .str "C1", .int 2, .str "x"]]⟩
      "oid" "dt" "cid" "qty" "price" =
      .ok ⟨["oid", "dt", "cid", "OrderValue"],
           [[.int 1, .date ⟨1, 0⟩, .str "C1", .str "xx"]]⟩ :=
  ⟨rfl, rfl⟩

/-- Claim C7 (amended): the failure modes follow the evaluation order of
the code.  If the quantity or unit-price column is absent the aggregator
fails with SchemaError.  With both present, the per-row products are
evaluated first: a pair Python cannot multiply (e.g. two strings) raises
TypeError — but an integral quantity times a string price succeeds, as
string repetition, contrary to the original claim.  With all products
defined and numeric, a missing order-id/timestamp/customer-id column again
raises SchemaError (detected when those columns are read).  With all five
columns present, numeric quantities and prices, and timestamp values in
the timestamp column, it succeeds. -/
theorem schema_type_error_cases (df : Table) (o d c q p : String) :
    ((q ∉ df.cols ∨ p ∉ df.cols) →
      createTransactionLog df o d c q p = .error .schemaError) ∧
    (∀ qs ps, df.getCol q = .ok qs → df.getCol p = .ok ps →
      (∃ qp ∈ qs.zip ps, pymul qp.1 qp.2 = .error .typeError) →
      createTransactionLog df o d c q p = .error .typeError) ∧
    (∀ qs ps, df.getCol q = .ok qs → df.getCol p = .ok ps →
      (∀ v ∈ qs ++ ps, v.isNum = true) →
      o ∉ df.cols ∨ d ∉ df.cols ∨ c ∉ df.cols →
      o ≠ "OrderValue" → d ≠ "OrderValue" → c ≠ "OrderValue" → df.rect →
      createTransactionLog df o d c q p = .error .schemaError) ∧
    (∀ qs ps dvals, df.getCol q = .ok qs → df.getCol p = .ok ps →
      (∀ v ∈ qs ++ ps, v.isNum = true) →
      df.getCol d = .ok dvals → (∀ v ∈ dvals, v.isDate = true) →
      o ∈ df.cols → c ∈ df.cols → df.rect →
      o ≠ "OrderValue" → d ≠ "OrderValue" → c ≠ "OrderValue" →
      ∃ t, createTransactionLog df o d c q p = .ok t) := by
  have hzip : ∀ (qs ps : List Value), (∀ v ∈ qs ++ ps, v.isNum = true) →
      ∀ qp ∈ qs.zip ps, qp.1.isNum = true ∧ qp.2.isNum = true := by
    intro qs ps hnum qp hqp
    obtain ⟨a, b⟩ := qp
    obtain ⟨h1, h2⟩ := List.of_mem_zip hqp
    exact ⟨hnum a (List.mem_append.mpr (Or.inl h1)),
      hnum b (List.mem_append.mpr (Or.inr h2))⟩
  refine ⟨?_, ?_, ?_, ?_⟩
  · intro hmiss
    unfold createTransactionLog
    by_cases hqmem : q ∈ df.cols
    · obtain ⟨qs, hq⟩ := getCol_mem_ok hqmem
      have hpmiss : p ∉ df.cols := by tauto
      rw [hq, ok_bind, getCol_not_mem hpmiss, error_bind]
    · rw [getCol_not_mem hqmem, error_bind]
  · intro qs ps hq hp hbad
    unfold createTransactionLog
    rw [hq, ok_bind, hp, ok_bind, mapM_pymul_error hbad, error_bind]
  · intro qs ps hq hp hnum hmiss ho hd hc hrect
    unfold createTransactionLog
    rw [hq, ok_bind, hp, ok_bind]
    obtain ⟨ovs, hovs, hovmap, hovnum, hovlen⟩ := mapM_pymul_ok (hzip qs ps hnum)
    rw [hovs, ok_bind]
    have hovlen2 : ovs.length = df.rows.length := by
      rw [hovlen, List.length_zip, getCol_length hq, getCol_length hp]
      exact Nat.min_self _
    by_cases homem : o ∈ df.cols
    · obtain ⟨os, hos⟩ := getCol_mem_ok homem
      rw [show (df.setCol "OrderValue" ovs).getCol o = .ok os from
        (getCol_setCol_ne hrect hovlen2 ho).trans hos, ok_bind]
      by_cases hdmem : d ∈ df.cols
      · obtain ⟨ds, hds⟩ := getCol_mem_ok hdmem
        rw [show (df.setCol "OrderValue" ovs).getCol d = .ok ds from
          (getCol_setCol_ne hrect hovlen2 hd).trans hds, ok_bind]
        have hcmiss : c ∉ df.cols := by tauto
        rw [show (df.setCol "OrderValue" ovs).getCol c = .error .schemaError from
          (getCol_setCol_ne hrect hovlen2 hc).trans (getCol_not_mem hcmiss), error_bind]
      · rw [show (df.setCol "OrderValue" ovs).getCol d = .error .schemaError from
          (getCol_setCol_ne hrect hovlen2 hd).trans (getCol_not_mem hdmem), error_bind]
    · rw [show (df.setCol "OrderValue" ovs).getCol o = .error .schemaError from
        (getCol_setCol_ne hrect hovlen2 ho).trans (getCol_not_mem homem), error_bind]
  · intro qs ps dvals hq hp hnum hdv hdates homem hcmem hrect ho hd hc
    unfold createTransactionLog
    rw [hq, ok_bind, hp, ok_bind]
    obtain ⟨ovs, hovs, hovmap, hovnum, hovlen⟩ := mapM_pymul_ok (hzip qs ps hnum)
    rw [hovs, ok_bind]
    have hovlen2 : ovs.length = df.rows.length := by
      rw [hovlen, List.length_zip, getCol_length hq, getCol_length hp]
      exact Nat.min_self _
    obtain ⟨os, hos⟩ := getCol_mem_ok homem
    obtain ⟨cs, hcs⟩ := getCol_mem_ok hcmem
    rw [show (df.setCol "OrderValue" ovs).getCol o = .ok os from
      (getCol_setCol_ne hrect hovlen2 ho).trans hos, ok_bind]
    rw [show (df.setCol "OrderValue" ovs).getCol d = .ok dvals from
      (getCol_setCol_ne hrect hovlen2 hd).trans hdv, ok_bind]
    rw [show (df.setCol "OrderValue" ovs).getCol c = .ok cs from
      (getCol_setCol_ne hrect hovlen2 hc).trans hcs, ok_bind]
    have hgroupnum : ∀ k ∈ (os.zip (dvals.zip cs)).dedup,
        ∀ v ∈ ((((os.zip (dvals.zip cs)).zip ovs).filter
          (fun kv => kv.1 == k)).map Prod.snd), v.isNum = true := by
      intro k _ v hv
      rw [List.mem_map] at hv
      obtain ⟨kv, hkv, hkveq⟩ := hv
      obtain ⟨kk, vv⟩ := kv
      have hmemzip := (List.mem_filter.mp hkv).1
      subst hkveq
      exact hovnum vv (List.of_mem_zip hmemzip).2
    obtain ⟨sums, hsums, hsummap, hsumlen⟩ := mapM_pysum_ok hgroupnum
    rw [hsums, ok_bind]
    have hkdates : ∀ v ∈ ((os.zip (dvals.zip cs)).dedup).map (fun k => k.2.1),
        v.isDate = true := by
      intro v hv
      rw [List.mem_map] at hv
      obtain ⟨k, hk, hkeq⟩ := hv
      obtain ⟨ko, kd, kc⟩ := k
      have hkeys := List.mem_dedup.mp hk
      have h2 := (List.of_mem_zip hkeys).2
      have h3 := (List.of_mem_zip h2).1
      subst hkeq
      exact hdates kd h3
    rw [mapM_astype_ok_of_dates hkdates, ok_bind]
    exact ⟨_, rfl⟩

/-- Witness for the amended C7: a missing quantity column, a two-string
product, a missing customer-id column, and a fully well-formed table. -/
theorem schema_type_error_cases_witness :
    createTransactionLog ⟨["oid"], [[.int 1]]⟩ "oid" "dt" "cid" "qty" "price"
      = .error .schemaError ∧
    createTransactionLog
      ⟨["oid", "dt", "cid", "qty", "price"],
       [[.int 1, .date ⟨1, 0⟩, .str "C1", .str "a", .str "b"]]⟩
      "oid" "dt" "cid" "qty" "price" = .error .typeError ∧
    createTransactionLog
      ⟨["oid", "dt", "qty", "price"],
       [[.int 1, .date ⟨1, 0⟩, .int 2, .int 3]]⟩
      "oid" "dt" "cid" "qty" "price" = .error .schemaError ∧
    ∃ t, createTransactionLog
      ⟨["o", "t", "cu", "qty", "pr"],
       [[.int 1, .date ⟨1, 0⟩, .str "A", .int 2, .int 3],
        [.int 1, .date ⟨1, 0⟩, .str "A", .int 1, .int 4],
        [.int 2, .date ⟨2, 0⟩, .str "B", .int 5, .int 1]]⟩
      "o" "t" "cu" "qty" "pr" = .ok t :=
  ⟨(schema_type_error_cases ⟨["oid"], [[.int 1]]⟩ "oid" "dt" "cid" "qty" "price").1
      (Or.inl (by decide)),
   (schema_type_error_cases _ "oid" "dt" "cid" "qty" "price").2.1 _ _ rfl rfl
      ⟨(.str "a", .str "b"), by decide, rfl⟩,
   (schema_type_error_cases _ "oid" "dt" "cid" "qty" "price").2.2.1 _ _ rfl rfl
      (by decide) (Or.inr (Or.inr (by decide))) (by decide) (by decide) (by decide)
      (by unfold Table.rect; decide),
   (schema_type_error_cases _ "o" "t" "cu" "qty" "pr").2.2.2 _ _ _ rfl rfl
      (by decide) rfl (by decide) (by decide) (by decide)
      (by unfold Table.rect; decide) (by decide) (by decide) (by decide)⟩
